import Mathlib

/-!
Shallow embedding of the spending-tracker page (`src/app/page.tsx`).

The page stores a list of transactions, ingests CSV rows (normalising,
de-duplicating and sorting them), and derives chart series (cumulative,
daily-by-category, weekly) plus presentation helpers (category colors,
tooltip truncation, file-drop filtering).

Modelling conventions:
* JS strings are modelled as `String`; `s.length`, `substring`, `split`,
  `endsWith` and string comparison are modelled on the underlying
  character list (`s.data`), one `Char` per UTF-16 code unit (all inputs
  of interest are in the basic plane).
* JS numbers are modelled as `ℚ`; the stored amounts are produced by a
  model of `parseFloat` and are never `NaN` (the `NaN` case is `none`).
* The stable `Array.prototype.sort` is modelled by `List.insertionSort`
  (a stable sort, so extensionally equal to any stable sort with the
  same comparator).
* `Map`/`Set` objects are modelled by association lists in insertion
  order, with `get`/`set`/first-occurrence-wins semantics.
* JS `Date` arithmetic (`new Date("YYYY-MM-DD")`, `getDay`, `getDate`,
  `setDate`, `toISOString`) is modelled by civil-calendar day numbers
  (days since 1970-01-01), assuming a UTC runtime.
-/

/-- Lexicographic (code-unit) comparison of character lists.  Models the
comparator `a.localeCompare(b) ≤ 0` on ASCII strings such as ISO dates. -/
def listCharLe : List Char → List Char → Bool
  | [], _ => true
  | _ :: _, [] => false
  | a :: as, b :: bs => if a = b then listCharLe as bs else decide (a.toNat < b.toNat)

/-- `a ≤ b` on strings, code-unit lexicographic. -/
def strLeB (a b : String) : Bool := listCharLe a.data b.data

/-- Splitting a character list at a separator.  Models the JS builtin
`String.prototype.split` with a one-character separator: `"".split` is
`[""]`, separators at the ends produce empty chunks. -/
def splitChar (sep : Char) : List Char → List (List Char)
  | [] => [[]]
  | c :: cs =>
    if c = sep then [] :: splitChar sep cs
    else
      match splitChar sep cs with
      | [] => [[c]]
      | h :: t => (c :: h) :: t

/-- Models JS `s.split(sep)` for a one-character separator. -/
def jsSplit (s : String) (sep : Char) : List String :=
  (splitChar sep s.data).map String.mk

/-- Models JS `s.padStart(2, '0')`. -/
def padStart2 (s : String) : String :=
  if 2 ≤ s.data.length then s
  else String.mk (List.replicate (2 - s.data.length) '0') ++ s

/-- Models JS `s.substring(0, n)`. -/
def jsSubstringTo (s : String) (n : Nat) : String := String.mk (s.data.take n)

/-- `p` is a prefix of `l`, as a boolean on character lists. -/
def listStartsWith : List Char → List Char → Bool
  | [], _ => true
  | _ :: _, [] => false
  | a :: as, b :: bs => decide (a = b) && listStartsWith as bs

/-- Models JS `s.endsWith(post)`. -/
def jsEndsWith (s post : String) : Bool :=
  listStartsWith post.data.reverse s.data.reverse

/-- ASCII lower-casing of one character. -/
def lowerChar (c : Char) : Char :=
  if 65 ≤ c.toNat ∧ c.toNat ≤ 90 then Char.ofNat (c.toNat + 32) else c

/-- ASCII lower-casing of a string (used to state case-insensitive
comparison the way the spec describes it). -/
def lowerStr (s : String) : String := String.mk (s.data.map lowerChar)

/-- Is `c` an ASCII digit? -/
def isDigitChar (c : Char) : Bool := decide (48 ≤ c.toNat) && decide (c.toNat ≤ 57)

/-- Longest digit prefix of a character list, and the rest. -/
def takeDigits : List Char → List Char × List Char
  | [] => ([], [])
  | c :: cs =>
    if isDigitChar c then
      let p := takeDigits cs
      (c :: p.1, p.2)
    else ([], c :: cs)

/-- Value of a digit list, most significant first. -/
def digitsToNat : List Char → Nat → Nat
  | [], acc => acc
  | c :: cs, acc => digitsToNat cs (acc * 10 + (c.toNat - 48))

/-- Modelled JS builtin `parseFloat`: an optional sign followed by decimal
digits with an optional fractional part is parsed from the front of the
string; every other string yields `none` (the `NaN` result).  Exponents,
`Infinity` and leading whitespace are not modelled. -/
def jsParseFloat (s : String) : Option ℚ :=
  let hasMinus := s.data.headD ' ' = '-'
  let hasPlus := s.data.headD ' ' = '+'
  let sign : ℚ := if hasMinus then -1 else 1
  let rest := if hasMinus ∨ hasPlus then s.data.tail else s.data
  let ip := takeDigits rest
  let fp : List Char :=
    if ip.2.headD ' ' = '.' then (takeDigits ip.2.tail).1 else []
  if ip.1 = [] ∧ fp = [] then none
  else
    some (sign * ((digitsToNat ip.1 0 : ℚ) +
      (digitsToNat fp 0 : ℚ) / (10 : ℚ) ^ fp.length))

/-- A canonical transaction record (`interface Transaction`): ISO date
string, spend-positive amount, description, category. -/
structure Transaction where
  date : String
  amount : ℚ
  description : String
  category : String
deriving DecidableEq, Repr

/-- One raw CSV row as delivered by the parsing library with
`header: true`: each recognised column is either present (`some`, possibly
the empty string) or missing (`none`, i.e. `undefined`). -/
structure RawRow where
  transactionDate : Option String
  amount : Option String
  description : Option String
  category : Option String
deriving DecidableEq, Repr

/-- Result of normalising one row: `ok` (pushed), `skip` (silently
dropped), or `err` (the row handler throws a `TypeError`, modelling
`day.padStart` on `undefined` when the date has no slash). -/
inductive NormResult where
  | err : NormResult
  | skip : NormResult
  | ok : Transaction → NormResult
deriving DecidableEq, Repr

/-- JS `row[col] || default`: `undefined` and the empty string are falsy. -/
def jsDefault (v : Option String) (dflt : String) : String :=
  match v with
  | some s => if s = "" then dflt else s
  | none => dflt

/-- Normalisation of one raw row (the body of the `results.data.forEach`
in `parseCSV`): check that date and amount are present and non-empty,
split the date on `/`, rebuild it as `YYYY-MM-DD`, negate the parsed
amount, and keep the row unless the amount is `NaN`.  A date with a
single component makes `day` `undefined`, so `day.padStart` throws
(`err`); a missing third component stringifies as `"undefined"`. -/
def normalizeRow (row : RawRow) : NormResult :=
  let description := jsDefault row.description "Unknown"
  let category := jsDefault row.category "Uncategorized"
  match row.transactionDate, row.amount with
  | some dateStr, some amountStr =>
    if dateStr ≠ "" ∧ amountStr ≠ "" then
      match jsSplit dateStr '/' with
      | [] => .err
      | [_] => .err
      | month :: day :: rest =>
        let year := match rest with | [] => "undefined" | y :: _ => y
        let date := year ++ "-" ++ padStart2 month ++ "-" ++ padStart2 day
        match jsParseFloat amountStr with
        | none => .skip
        | some v => .ok ⟨date, -v, description, category⟩
    else .skip
  | _, _ => .skip

/-- Normalising a whole file: rows are processed in order; the first
`err` aborts the callback before the store is touched (`none`), `skip`
rows are dropped, `ok` rows are collected in order. -/
def parseRows : List RawRow → Option (List Transaction)
  | [] => some []
  | r :: rs =>
    match normalizeRow r with
    | .err => none
    | .skip => parseRows rs
    | .ok t => (parseRows rs).map (t :: ·)

/-- First-occurrence-wins de-duplication (`seen` holds the values kept so
far).  Models `combined.filter((x, i, self) => i === self.findIndex(y => y
equals x))`: an element is kept iff no earlier element equals it. -/
def dedupFirstAux {α : Type} [DecidableEq α] (seen : List α) : List α → List α
  | [] => []
  | a :: l =>
    if a ∈ seen then dedupFirstAux seen l
    else a :: dedupFirstAux (a :: seen) l

/-- Keep the first occurrence of every value, in stable order. -/
def dedupFirst {α : Type} [DecidableEq α] (l : List α) : List α := dedupFirstAux [] l

/-- The sort relation of `unique.sort((a, b) => a.date.localeCompare(b.date))`. -/
def dateRel (a b : Transaction) : Prop := strLeB a.date b.date = true

instance : DecidableRel dateRel :=
  fun a b => inferInstanceAs (Decidable (strLeB a.date b.date = true))

/-- The default string sort relation (`Array.prototype.sort` on strings). -/
def strRel (a b : String) : Prop := strLeB a b = true

instance : DecidableRel strRel :=
  fun a b => inferInstanceAs (Decidable (strLeB a b = true))

/-- Stable sort of transactions by date string. -/
def sortByDate (l : List Transaction) : List Transaction := l.insertionSort dateRel

/-- Stable sort of strings. -/
def sortStrings (l : List String) : List String := l.insertionSort strRel

/-- The store mutation of `parseCSV`'s completion callback: normalise the
rows, and — unless a row threw — append to the previous store contents,
drop duplicate records (first occurrence wins) and sort by date. -/
def ingest (prev : List Transaction) (rows : List RawRow) : List Transaction :=
  match parseRows rows with
  | none => prev
  | some newTransactions => sortByDate (dedupFirst (prev ++ newTransactions))

/-- `clearData` empties the store. -/
def clearData : List Transaction := []

/-- Store states reachable through the UI: the initial empty store, any
ingestion, and `clearData`.  (The persistence slot only replays a state
previously saved by one of these mutations.) -/
inductive ReachableStore : List Transaction → Prop
  | init : ReachableStore []
  | ingest (s : List Transaction) (rows : List RawRow) :
      ReachableStore s → ReachableStore (ingest s rows)
  | clear (s : List Transaction) : ReachableStore s → ReachableStore clearData

/-- `Map.get` on an insertion-ordered association list. -/
def mapGet {β : Type} : List (String × β) → String → Option β
  | [], _ => none
  | (k₀, v₀) :: m, k => if k₀ = k then some v₀ else mapGet m k

/-- `Map.set` on an insertion-ordered association list: replace in place
or append. -/
def mapSet {β : Type} : List (String × β) → String → β → List (String × β)
  | [], k, v => [(k, v)]
  | (k₀, v₀) :: m, k, v =>
    if k₀ = k then (k₀, v) :: m else (k₀, v₀) :: mapSet m k v

/-- `map.get(k) || 0` on a numeric map. -/
def mapGetD (m : List (String × ℚ)) (k : String) : ℚ := (mapGet m k).getD 0

/-- The shared accumulation pattern `map.set(key(t), (map.get(key(t)) || 0)
+ t.amount)` run over all transactions (used for `dailyMap` and
`weeklyMap`). -/
def buildKeyMap (key : Transaction → String) (ts : List Transaction) :
    List (String × ℚ) :=
  ts.foldl (fun m t => mapSet m (key t) (mapGetD m (key t) + t.amount)) []

/-- `dailyMap`: per-date totals. -/
def dailyMap (ts : List Transaction) : List (String × ℚ) :=
  buildKeyMap (fun t => t.date) ts

/-- The shared x-axis: `Array.from(new Set(transactions.map(t => t.date))).sort()`. -/
def allDates (ts : List Transaction) : List String :=
  sortStrings (dedupFirst (ts.map (fun t => t.date)))

/-- The running total of the cumulative view: `cumulative += dailyAmount`
mapped over the dates. -/
def runningTotals (f : String → ℚ) : List String → ℚ → List ℚ
  | [], _ => []
  | d :: ds, acc => (acc + f d) :: runningTotals f ds (acc + f d)

/-- The data of the `Cumulative` dataset. -/
def cumulativeData (ts : List Transaction) : List ℚ :=
  runningTotals (fun d => mapGetD (dailyMap ts) d) (allDates ts) 0

/-- Day number (days since 1970-01-01) of a civil date, Howard Hinnant's
`days_from_civil` (all quantities nonnegative for the dates handled). -/
def daysFromCivil (y m d : Int) : Int :=
  let y := if m ≤ 2 then y - 1 else y
  let era := y / 400
  let yoe := y - era * 400
  let mp := if 2 < m then m - 3 else m + 9
  let doy := (153 * mp + 2) / 5 + d - 1
  let doe := yoe * 365 + yoe / 4 - yoe / 100 + doy
  era * 146097 + doe - 719468

/-- Civil date of a day number, Howard Hinnant's `civil_from_days`. -/
def civilFromDays (z : Int) : Int × Int × Int :=
  let z := z + 719468
  let era := z / 146097
  let doe := z - era * 146097
  let yoe := (doe - doe / 1460 + doe / 36524 - doe / 146096) / 365
  let y := yoe + era * 400
  let doy := doe - (365 * yoe + yoe / 4 - yoe / 100)
  let mp := (5 * doy + 2) / 153
  let d := doy - (153 * mp + 2) / 5 + 1
  let m := if mp < 10 then mp + 3 else mp - 9
  (if m ≤ 2 then y + 1 else y, m, d)

/-- Decimal digits of a `Nat` (structural on a fuel argument). -/
def natToDigitsAux : Nat → Nat → List Char → List Char
  | 0, _, acc => acc
  | fuel + 1, n, acc =>
    if n < 10 then Char.ofNat (48 + n) :: acc
    else natToDigitsAux fuel (n / 10) (Char.ofNat (48 + n % 10) :: acc)

/-- Decimal string of a `Nat`. -/
def natToString (n : Nat) : String := String.mk (natToDigitsAux (n + 1) n [])

/-- Decimal string of an `Int` (JS number-to-string for integral values). -/
def intToString (n : Int) : String :=
  if n < 0 then "-" ++ natToString n.natAbs else natToString n.natAbs

/-- Models JS `s.padStart(4, '0')` (year field of `toISOString`). -/
def padStart4 (s : String) : String :=
  if 4 ≤ s.data.length then s
  else String.mk (List.replicate (4 - s.data.length) '0') ++ s

/-- The date part of `toISOString` of a civil date. -/
def formatISODate (y m d : Int) : String :=
  padStart4 (natToString y.natAbs) ++ "-" ++ padStart2 (natToString m.natAbs) ++
    "-" ++ padStart2 (natToString d.natAbs)

/-- Civil date encoded in a `YYYY-MM-DD` string (the `new
Date(t.date)` parse, UTC runtime; behaviour on malformed date strings is
not modelled). -/
def parseISODate (s : String) : Int × Int × Int :=
  match jsSplit s '-' with
  | [y, m, d] => ((digitsToNat y.data 0 : Nat), (digitsToNat m.data 0 : Nat),
      (digitsToNat d.data 0 : Nat))
  | _ => (0, 0, 0)

/-- The Monday rollback on day numbers: `getDay()` is `(n + 4) % 7`
(1970-01-01 was a Thursday) and `setDate(diff)` adds `diff - getDate()`
days.  `dayOfMonth` cancels, but it is kept to mirror the source
expression `date.getDate() - day + (day === 0 ? -6 : 1)`. -/
def jsMondayNum (n dayOfMonth : Int) : Int :=
  let day := (n + 4) % 7
  let diff := dayOfMonth - day + (if day = 0 then -6 else 1)
  n + (diff - dayOfMonth)

/-- The week key of a date string: Monday of its week, ISO-formatted
(`monday.toISOString().split('T')[0]`). -/
def weekKeyStr (s : String) : String :=
  let c := parseISODate s
  let n := daysFromCivil c.1 c.2.1 c.2.2
  let c2 := civilFromDays (jsMondayNum n c.2.2)
  formatISODate c2.1 c2.2.1 c2.2.2

/-- `weeklyMap`: totals keyed by the week key. -/
def weeklyMap (ts : List Transaction) : List (String × ℚ) :=
  buildKeyMap (fun t => weekKeyStr t.date) ts

/-- The data of the `Weekly` dataset: each date is mapped to the total of
its owning week. -/
def weeklyData (ts : List Transaction) : List ℚ :=
  (allDates ts).map (fun date => mapGetD (weeklyMap ts) (weekKeyStr date))

/-- Distinct categories, sorted: `Array.from(new Set(...)).sort()`. -/
def categories (ts : List Transaction) : List String :=
  sortStrings (dedupFirst (ts.map (fun t => t.category)))

/-- `dailyCategoryMap`: date → (category → total), built exactly like the
source (outer `has`/`set` then inner `get`/`set`). -/
def dailyCategoryMap (ts : List Transaction) :
    List (String × List (String × ℚ)) :=
  ts.foldl
    (fun m t =>
      let m := if (mapGet m t.date).isNone then mapSet m t.date [] else m
      let categoryMap := (mapGet m t.date).getD []
      mapSet m t.date
        (mapSet categoryMap t.category (mapGetD categoryMap t.category + t.amount)))
    []

/-- The data of one category's stacked bar dataset. -/
def categoryData (ts : List Transaction) (category : String) : List ℚ :=
  (allDates ts).map (fun date =>
    match mapGet (dailyCategoryMap ts) date with
    | some categoryMap => mapGetD categoryMap category
    | none => 0)

/-- The data of the invisible `Total (Daily)` label dataset. -/
def totalData (ts : List Transaction) : List ℚ :=
  (allDates ts).map (fun date => mapGetD (dailyMap ts) date)

/-- The set of enabled views (`Set<ViewMode>`). -/
structure Views where
  cumulative : Bool
  daily : Bool
  weekly : Bool
deriving DecidableEq, Repr

/-- `enabledViews.size`. -/
def viewsSize (v : Views) : Nat :=
  (if v.cumulative then 1 else 0) + (if v.daily then 1 else 0) +
    (if v.weekly then 1 else 0)

/-- One chart dataset, projected onto the fields the spec talks about. -/
structure Dataset where
  label : String
  data : List ℚ
deriving DecidableEq, Repr

/-- The value returned by `getChartData`. -/
structure ChartData where
  labels : List String
  datasets : List Dataset
deriving DecidableEq, Repr

/-- `getChartData`: the empty-state early return, else the shared label
axis and the datasets of every enabled view, in source order. -/
def getChartData (ts : List Transaction) (views : Views) : ChartData :=
  if ts.length = 0 ∨ viewsSize views = 0 then
    ⟨[], [⟨"No data", []⟩]⟩
  else
    ⟨allDates ts,
      (if views.cumulative then [⟨"Cumulative", cumulativeData ts⟩] else []) ++
      (if views.daily then
        (categories ts).map (fun c => ⟨c, categoryData ts c⟩) ++
          [⟨"Total (Daily)", totalData ts⟩]
      else []) ++
      (if views.weekly then [⟨"Weekly", weeklyData ts⟩] else [])⟩

/-- The fixed category color table. -/
def colorTable : List (String × String) :=
  [("Groceries", "#10b981"), ("Gas", "#f59e0b"), ("Restaurants", "#ef4444"),
   ("Entertainment", "#8b5cf6"), ("Shopping", "#ec4899"), ("Travel", "#3b82f6"),
   ("Bills & Utilities", "#14b8a6"), ("Healthcare", "#06b6d4"),
   ("Personal", "#f97316"), ("Professional Services", "#6366f1"),
   ("Home", "#84cc16"), ("Automotive", "#eab308"), ("Education", "#0ea5e9"),
   ("Gifts & Donations", "#d946ef"), ("Uncategorized", "#6b7280")]

/-- Wrap to a signed 32-bit integer (JS `ToInt32`). -/
def toInt32 (n : Int) : Int := (n + 2 ^ 31) % 2 ^ 32 - 2 ^ 31

/-- One step of the rolling hash: `hash = charCode + ((hash << 5) - hash)`.
JS `<<` truncates its operand and result to 32 bits; the subtraction does
not. -/
def jsHashStep (h : Int) (c : Char) : Int :=
  (c.toNat : Int) + (toInt32 (toInt32 h * 32) - h)

/-- The polynomial rolling hash of `getCategoryColor`. -/
def jsHash (s : String) : Int := s.data.foldl jsHashStep 0

/-- `getCategoryColor`: fixed table first, else a hue from the rolling
hash, via JS `%` (remainder with the dividend's sign, `Int.tmod`). -/
def getCategoryColor (category : String) : String :=
  match mapGet colorTable category with
  | some c => c
  | none =>
    let hue := Int.tmod (jsHash category) 360
    "hsl(" ++ intToString hue ++ ", 70%, 50%)"

/-- The tooltip's per-transaction description:
`t.description.length > 35 ? t.description.substring(0, 32) + '...' :
t.description`. -/
def truncateDescription (s : String) : String :=
  if 35 < s.data.length then jsSubstringTo s 32 ++ "..." else s

/-- `handleDrop`'s file filter: a dropped file reaches `parseCSV` iff
`file.name.endsWith('.csv') || file.name.endsWith('.CSV')`. -/
def acceptsFile (name : String) : Bool :=
  jsEndsWith name ".csv" || jsEndsWith name ".CSV"

/-- Sum of the amounts of the transactions satisfying `p` (the reference
measurement the aggregation theorems are stated against). -/
def sumFor (ts : List Transaction) (p : Transaction → Bool) : ℚ :=
  ((ts.filter p).map Transaction.amount).sum

/-! ### Order lemmas for the string comparator -/

theorem charToNat_inj {a b : Char} (h : a.toNat = b.toNat) : a = b := by
  apply Char.ext
  apply UInt32.ext
  simpa [Char.toNat, UInt32.toNat] using h

theorem listCharLe_refl (l : List Char) : listCharLe l l = true := by
  induction l with
  | nil => rfl
  | cons a l ih => simpa [listCharLe] using ih

theorem listCharLe_total (a b : List Char) :
    listCharLe a b = true ∨ listCharLe b a = true := by
  induction a generalizing b with
  | nil => exact Or.inl rfl
  | cons x as ih =>
    cases b with
    | nil => exact Or.inr rfl
    | cons y bs =>
      by_cases hxy : x = y
      · subst hxy
        simpa [listCharLe] using ih bs
      · have hne : x.toNat ≠ y.toNat := fun h => hxy (charToNat_inj h)
        simp only [listCharLe, if_neg hxy, if_neg (Ne.symm hxy), decide_eq_true_eq]
        omega

theorem listCharLe_trans {a b c : List Char} (h₁ : listCharLe a b = true)
    (h₂ : listCharLe b c = true) : listCharLe a c = true := by
  induction a generalizing b c with
  | nil => rfl
  | cons x as ih =>
    cases b with
    | nil => simp [listCharLe] at h₁
    | cons y bs =>
      cases c with
      | nil => simp [listCharLe] at h₂
      | cons z cs =>
        by_cases hxy : x = y <;> by_cases hyz : y = z
        · subst hxy; subst hyz
          simp only [listCharLe, if_pos rfl] at h₁ h₂ ⊢
          exact ih h₁ h₂
        · subst hxy
          simp only [listCharLe, if_pos rfl, if_neg hyz] at h₂ ⊢
          exact h₂
        · subst hyz
          simp only [listCharLe, if_pos rfl, if_neg hxy] at h₁ ⊢
          exact h₁
        · simp only [listCharLe, if_neg hxy, if_neg hyz, decide_eq_true_eq] at h₁ h₂
          have hxz : x ≠ z := fun h => by subst h; omega
          simp only [listCharLe, if_neg hxz, decide_eq_true_eq]
          omega

theorem listCharLe_antisymm {a b : List Char} (h₁ : listCharLe a b = true)
    (h₂ : listCharLe b a = true) : a = b := by
  induction a generalizing b with
  | nil =>
    cases b with
    | nil => rfl
    | cons y bs => simp [listCharLe] at h₂
  | cons x as ih =>
    cases b with
    | nil => simp [listCharLe] at h₁
    | cons y bs =>
      by_cases hxy : x = y
      · subst hxy
        simp only [listCharLe, if_pos rfl] at h₁ h₂
        rw [ih h₁ h₂]
      · simp only [listCharLe, if_neg hxy, if_neg (Ne.symm hxy),
          decide_eq_true_eq] at h₁ h₂
        omega

theorem strLeB_refl (s : String) : strLeB s s = true := listCharLe_refl s.data

theorem strLeB_total (a b : String) : strLeB a b = true ∨ strLeB b a = true :=
  listCharLe_total a.data b.data

theorem strLeB_trans {a b c : String} (h₁ : strLeB a b = true)
    (h₂ : strLeB b c = true) : strLeB a c = true :=
  listCharLe_trans h₁ h₂

theorem strLeB_antisymm {a b : String} (h₁ : strLeB a b = true)
    (h₂ : strLeB b a = true) : a = b :=
  String.ext (listCharLe_antisymm h₁ h₂)

instance : IsTotal String strRel := ⟨strLeB_total⟩

instance : IsTrans String strRel := ⟨fun _ _ _ => strLeB_trans⟩

instance : IsTotal Transaction dateRel := ⟨fun a b => strLeB_total a.date b.date⟩

instance : IsTrans Transaction dateRel := ⟨fun _ _ _ => strLeB_trans⟩

/-! ### De-duplication lemmas -/

theorem mem_dedupFirstAux {α : Type} [DecidableEq α] (seen l : List α) (x : α) :
    x ∈ dedupFirstAux seen l ↔ x ∈ l ∧ x ∉ seen := by
  induction l generalizing seen with
  | nil => simp [dedupFirstAux]
  | cons a l ih =>
    by_cases ha : a ∈ seen
    · simp only [dedupFirstAux, if_pos ha, ih, List.mem_cons]
      constructor
      · rintro ⟨h₁, h₂⟩; exact ⟨Or.inr h₁, h₂⟩
      · rintro ⟨h₁ | h₁, h₂⟩
        · exact absurd (h₁ ▸ ha) h₂
        · exact ⟨h₁, h₂⟩
    · simp only [dedupFirstAux, if_neg ha, List.mem_cons, ih, List.mem_cons]
      constructor
      · rintro (rfl | ⟨h₁, h₂⟩)
        · exact ⟨Or.inl rfl, ha⟩
        · exact ⟨Or.inr h₁, fun hx => h₂ (Or.inr hx)⟩
      · rintro ⟨rfl | h₁, h₂⟩
        · exact Or.inl rfl
        · by_cases hxa : x = a
          · exact Or.inl hxa
          · exact Or.inr ⟨h₁, fun hx => by rcases hx with rfl | hx
                                           exacts [hxa rfl, h₂ hx]⟩

theorem mem_dedupFirst {α : Type} [DecidableEq α] (l : List α) (x : α) :
    x ∈ dedupFirst l ↔ x ∈ l := by
  simp [dedupFirst, mem_dedupFirstAux]

theorem nodup_dedupFirstAux {α : Type} [DecidableEq α] (seen l : List α) :
    (dedupFirstAux seen l).Nodup := by
  induction l generalizing seen with
  | nil => exact List.nodup_nil
  | cons a l ih =>
    by_cases ha : a ∈ seen
    · simpa [dedupFirstAux, if_pos ha] using ih seen
    · simp only [dedupFirstAux, if_neg ha]
      refine List.Nodup.cons ?_ (ih (a :: seen))
      intro hmem
      exact ((mem_dedupFirstAux (a :: seen) l a).mp hmem).2 (List.mem_cons_self a seen)

theorem nodup_dedupFirst {α : Type} [DecidableEq α] (l : List α) :
    (dedupFirst l).Nodup := nodup_dedupFirstAux [] l

theorem dedupFirstAux_eq_self {α : Type} [DecidableEq α] {seen l : List α}
    (hnd : l.Nodup) (hs : ∀ x ∈ l, x ∉ seen) : dedupFirstAux seen l = l := by
  induction l generalizing seen with
  | nil => rfl
  | cons a l ih =>
    have ha : a ∉ seen := hs a (List.mem_cons_self a l)
    simp only [dedupFirstAux, if_neg ha]
    congr 1
    refine ih (List.Nodup.of_cons hnd) ?_
    intro x hx
    simp only [List.mem_cons]
    rintro (rfl | hxs)
    · exact (List.nodup_cons.mp hnd).1 hx
    · exact hs x (List.mem_cons_of_mem a hx) hxs

theorem dedupFirstAux_all_seen {α : Type} [DecidableEq α] {seen l : List α}
    (h : ∀ x ∈ l, x ∈ seen) : dedupFirstAux seen l = [] := by
  induction l with
  | nil => rfl
  | cons a l ih =>
    have ha : a ∈ seen := h a (List.mem_cons_self a l)
    simp only [dedupFirstAux, if_pos ha]
    exact ih fun x hx => h x (List.mem_cons_of_mem a hx)

theorem dedupFirstAux_append_absorb {α : Type} [DecidableEq α] {l₂ : List α}
    (l seen : List α) (h : ∀ x ∈ l₂, x ∈ l ∨ x ∈ seen) :
    dedupFirstAux seen (l ++ l₂) = dedupFirstAux seen l := by
  induction l generalizing seen with
  | nil =>
    simp only [List.nil_append, dedupFirstAux]
    exact dedupFirstAux_all_seen fun x hx =>
      (h x hx).resolve_left (by simp)
  | cons a l ih =>
    by_cases ha : a ∈ seen
    · simp only [List.cons_append, dedupFirstAux, if_pos ha]
      refine ih seen fun x hx => ?_
      rcases h x hx with hx' | hx'
      · rcases List.mem_cons.mp hx' with rfl | hx''
        · exact Or.inr ha
        · exact Or.inl hx''
      · exact Or.inr hx'
    · simp only [List.cons_append, dedupFirstAux, if_neg ha]
      congr 1
      refine ih (a :: seen) fun x hx => ?_
      rcases h x hx with hx' | hx'
      · rcases List.mem_cons.mp hx' with rfl | hx''
        · exact Or.inr (List.mem_cons_self _ seen)
        · exact Or.inl hx''
      · exact Or.inr (List.mem_cons_of_mem a hx')

theorem dedupFirst_append_absorb {α : Type} [DecidableEq α] {l l₂ : List α}
    (h : ∀ x ∈ l₂, x ∈ l) : dedupFirst (l ++ l₂) = dedupFirst l :=
  dedupFirstAux_append_absorb l [] fun x hx => Or.inl (h x hx)

theorem dedupFirst_eq_self {α : Type} [DecidableEq α] {l : List α}
    (hnd : l.Nodup) : dedupFirst l = l :=
  dedupFirstAux_eq_self hnd (by simp)

/-! ### Sorting and ingestion lemmas -/

theorem sortByDate_perm (l : List Transaction) : (sortByDate l).Perm l :=
  List.perm_insertionSort dateRel l

theorem mem_sortByDate {l : List Transaction} {x : Transaction} :
    x ∈ sortByDate l ↔ x ∈ l :=
  (sortByDate_perm l).mem_iff

theorem sortByDate_pairwise (l : List Transaction) :
    (sortByDate l).Pairwise dateRel :=
  List.sorted_insertionSort dateRel l

theorem sortByDate_nodup {l : List Transaction} (h : l.Nodup) :
    (sortByDate l).Nodup :=
  ((sortByDate_perm l).nodup_iff).mpr h

theorem sortByDate_eq_of_pairwise {l : List Transaction}
    (h : l.Pairwise dateRel) : sortByDate l = l :=
  List.Sorted.insertionSort_eq h

theorem sortStrings_perm (l : List String) : (sortStrings l).Perm l :=
  List.perm_insertionSort strRel l

theorem mem_sortStrings {l : List String} {x : String} :
    x ∈ sortStrings l ↔ x ∈ l :=
  (sortStrings_perm l).mem_iff

theorem sortStrings_pairwise (l : List String) :
    (sortStrings l).Pairwise strRel :=
  List.sorted_insertionSort strRel l

theorem sortStrings_nodup {l : List String} (h : l.Nodup) :
    (sortStrings l).Nodup :=
  ((sortStrings_perm l).nodup_iff).mpr h

/-- C1. Ingestion is dedup-idempotent: starting from any prior store state,
ingesting the same row list twice leaves exactly the store produced by
ingesting it once — same contents (hence same transaction count) — because
records agreeing on all four fields are collapsed to the first occurrence
in stable order. -/
theorem C1_ingest_dedup_idempotent :
    ∀ (prev : List Transaction) (rows : List RawRow),
      ingest (ingest prev rows) rows = ingest prev rows ∧
      (ingest (ingest prev rows) rows).length = (ingest prev rows).length := by
  intro prev rows
  refine ⟨?_, ?_⟩
  · cases hp : parseRows rows with
    | none => simp only [ingest, hp]
    | some new =>
      simp only [ingest, hp]
      have hnodup : (sortByDate (dedupFirst (prev ++ new))).Nodup :=
        sortByDate_nodup (nodup_dedupFirst _)
      have hmem : ∀ x ∈ new, x ∈ sortByDate (dedupFirst (prev ++ new)) :=
        fun x hx =>
          mem_sortByDate.mpr ((mem_dedupFirst _ x).mpr (List.mem_append_right prev hx))
      rw [dedupFirst_append_absorb hmem, dedupFirst_eq_self hnodup]
      exact sortByDate_eq_of_pairwise (sortByDate_pairwise _)
  · cases hp : parseRows rows with
    | none => simp only [ingest, hp]
    | some new =>
      simp only [ingest, hp]
      have hnodup : (sortByDate (dedupFirst (prev ++ new))).Nodup :=
        sortByDate_nodup (nodup_dedupFirst _)
      have hmem : ∀ x ∈ new, x ∈ sortByDate (dedupFirst (prev ++ new)) :=
        fun x hx =>
          mem_sortByDate.mpr ((mem_dedupFirst _ x).mpr (List.mem_append_right prev hx))
      rw [dedupFirst_append_absorb hmem, dedupFirst_eq_self hnodup]
      rw [sortByDate_eq_of_pairwise (sortByDate_pairwise _)]

/-- C5. Every reachable store state is sorted non-decreasing by date
string (code-unit comparison of the ISO-form date). -/
theorem C5_reachable_store_sorted (s : List Transaction)
    (h : ReachableStore s) :
    s.Pairwise (fun a b => strLeB a.date b.date = true) := by
  induction h with
  | init => exact List.Pairwise.nil
  | ingest s rows _ ih =>
    cases hp : parseRows rows with
    | none => simpa only [ingest, hp] using ih
    | some new =>
      simpa only [ingest, hp] using sortByDate_pairwise (dedupFirst (s ++ new))
  | clear s _ => exact List.Pairwise.nil

/-- C5 witness: a concrete reachable state (one ingestion over the empty
store) is sorted. -/
theorem C5_witness :
    (ingest [] [⟨some "01/15/2024", some "-3", some "A", some "X"⟩,
                ⟨some "01/14/2024", some "-2", some "B", some "X"⟩]).Pairwise
      (fun a b => strLeB a.date b.date = true) :=
  C5_reachable_store_sorted _ (ReachableStore.ingest [] _ ReachableStore.init)

/-- C10. Ingestion is monotone: every transaction in the prior store is
still present (as the same record value) after any ingestion, and only
`clearData` empties the store (`clearData` is the empty store). -/
theorem C10_ingest_monotone :
    (∀ (prev : List Transaction) (rows : List RawRow) (t : Transaction),
        t ∈ prev → t ∈ ingest prev rows) ∧ clearData = [] := by
  refine ⟨?_, rfl⟩
  intro prev rows t ht
  cases hp : parseRows rows with
  | none => simpa only [ingest, hp] using ht
  | some new =>
    simp only [ingest, hp]
    exact mem_sortByDate.mpr ((mem_dedupFirst _ t).mpr (List.mem_append_left _ ht))

/-- C10 witness: a concrete prior record survives a concrete ingestion. -/
theorem C10_witness :
    (⟨"2024-01-15", 3, "A", "X"⟩ : Transaction) ∈
      ingest [⟨"2024-01-15", 3, "A", "X"⟩]
        [⟨some "01/16/2024", some "-2", some "B", some "X"⟩] :=
  C10_ingest_monotone.1 _ _ _ (List.mem_singleton.mpr rfl)

/-! ### Association-list map lemmas -/

theorem mapGet_mapSet {β : Type} (m : List (String × β)) (k' k : String) (v : β) :
    mapGet (mapSet m k' v) k = if k' = k then some v else mapGet m k := by
  induction m with
  | nil => simp [mapSet, mapGet]
  | cons p m ih =>
    obtain ⟨k₀, v₀⟩ := p
    simp only [mapSet]
    by_cases h₀ : k₀ = k'
    · subst h₀
      simp only [if_pos rfl, mapGet]
      by_cases hk : k₀ = k <;> simp [hk]
    · simp only [if_neg h₀, mapGet]
      by_cases hk : k₀ = k
      · subst hk
        have : k' ≠ k₀ := fun hc => h₀ hc.symm
        simp [this]
      · simp [hk, ih]

theorem mapGetD_mapSet (m : List (String × ℚ)) (k' k : String) (v : ℚ) :
    mapGetD (mapSet m k' v) k = if k' = k then v else mapGetD m k := by
  simp only [mapGetD, mapGet_mapSet]
  split_ifs <;> rfl

/-! ### Sum lemmas -/

theorem sumFor_nil (p : Transaction → Bool) : sumFor [] p = 0 := rfl

theorem sumFor_cons (t : Transaction) (ts : List Transaction)
    (p : Transaction → Bool) :
    sumFor (t :: ts) p = (if p t then t.amount else 0) + sumFor ts p := by
  simp only [sumFor, List.filter_cons]
  split_ifs <;> simp

theorem sumFor_congr {ts : List Transaction} {p q : Transaction → Bool}
    (h : ∀ t ∈ ts, p t = q t) : sumFor ts p = sumFor ts q := by
  simp only [sumFor]
  rw [List.filter_congr h]

theorem sumFor_disjoint_or (ts : List Transaction) (p q : Transaction → Bool)
    (h : ∀ t, ¬(p t = true ∧ q t = true)) :
    sumFor ts (fun t => p t || q t) = sumFor ts p + sumFor ts q := by
  induction ts with
  | nil => simp [sumFor]
  | cons t ts ih =>
    rw [sumFor_cons, sumFor_cons, sumFor_cons, ih]
    by_cases hp : p t <;> by_cases hq : q t
    · exact absurd ⟨hp, hq⟩ (h t)
    · simp [hp, hq]
      try ring
    · simp [hp, hq]
      try ring
    · simp [hp, hq]
      try ring

/-! ### Keyed accumulation lemmas -/

theorem buildKeyMap_go (key : Transaction → String) (ts : List Transaction) :
    ∀ (m : List (String × ℚ)) (k : String),
      mapGetD (ts.foldl (fun m t => mapSet m (key t) (mapGetD m (key t) + t.amount)) m) k
        = mapGetD m k + sumFor ts (fun t => key t = k) := by
  induction ts with
  | nil => intro m k; simp [sumFor]
  | cons t ts ih =>
    intro m k
    simp only [List.foldl_cons]
    rw [ih, sumFor_cons, mapGetD_mapSet]
    by_cases h : key t = k
    · simp [h]
      try ring
    · simp [h]
      try ring

theorem mapGetD_buildKeyMap (key : Transaction → String) (ts : List Transaction)
    (k : String) :
    mapGetD (buildKeyMap key ts) k = sumFor ts (fun t => key t = k) := by
  have h := buildKeyMap_go key ts [] k
  simpa [buildKeyMap, mapGetD, mapGet] using h

theorem mapGetD_dailyMap (ts : List Transaction) (d : String) :
    mapGetD (dailyMap ts) d = sumFor ts (fun t => t.date = d) :=
  mapGetD_buildKeyMap (fun t => t.date) ts d

theorem mapGetD_weeklyMap (ts : List Transaction) (k : String) :
    mapGetD (weeklyMap ts) k = sumFor ts (fun t => weekKeyStr t.date = k) :=
  mapGetD_buildKeyMap (fun t => weekKeyStr t.date) ts k

/-! ### Cumulative-series lemmas -/

theorem sumFor_false (ts : List Transaction) : sumFor ts (fun _ => false) = 0 := by
  induction ts with
  | nil => rfl
  | cons t ts ih =>
    rw [sumFor_cons]
    simp [ih]

theorem sumFor_mem_nil (ts : List Transaction) :
    sumFor ts (fun t => t.date ∈ ([] : List String)) = 0 := by
  have h : sumFor ts (fun t => t.date ∈ ([] : List String))
      = sumFor ts (fun _ => false) :=
    sumFor_congr (fun t _ => by simp)
  rw [h, sumFor_false]

theorem sumFor_mem_snoc (ts : List Transaction) (pre : List String) (d : String)
    (hd : d ∉ pre) :
    sumFor ts (fun t => t.date ∈ pre ++ [d])
      = sumFor ts (fun t => t.date ∈ pre) + sumFor ts (fun t => t.date = d) := by
  have hdisj : ∀ t : Transaction,
      ¬(decide (t.date ∈ pre) = true ∧ decide (t.date = d) = true) := by
    intro t hc
    rcases hc with ⟨h1, h2⟩
    simp only [decide_eq_true_eq] at h1 h2
    exact hd (h2 ▸ h1)
  rw [← sumFor_disjoint_or ts _ _ hdisj]
  apply sumFor_congr
  intro t ht
  by_cases h1 : t.date ∈ pre <;> by_cases h2 : t.date = d <;>
    simp [h1, h2, List.mem_append]

/-- The mutable running total over the sorted date axis computes, at every
date, the total of all transactions dated on or before it. -/
theorem runningTotals_spec (ts : List Transaction) :
    ∀ (ds pre : List String),
      (pre ++ ds).Pairwise strRel →
      (pre ++ ds).Nodup →
      (∀ t ∈ ts, t.date ∈ pre ++ ds) →
      runningTotals (fun d => mapGetD (dailyMap ts) d) ds
          (sumFor ts (fun t => t.date ∈ pre))
        = ds.map (fun d => sumFor ts (fun t => strLeB t.date d)) := by
  intro ds
  induction ds with
  | nil => intro pre _ _ _; rfl
  | cons d ds ih =>
    intro pre hpw hnd hcomp
    have hdnp : d ∉ pre := by
      intro hdp
      rcases List.nodup_append.mp hnd with ⟨_, _, hdisj⟩
      exact hdisj hdp (List.mem_cons_self d ds)
    have hacc : sumFor ts (fun t => t.date ∈ pre) + mapGetD (dailyMap ts) d
        = sumFor ts (fun t => t.date ∈ pre ++ [d]) := by
      rw [mapGetD_dailyMap, sumFor_mem_snoc ts pre d hdnp]
    have hcross : ∀ x ∈ pre, strRel x d := by
      have hp := (List.pairwise_append.mp hpw).2.2
      exact fun x hx => hp x hx d (List.mem_cons_self d ds)
    have hhead : sumFor ts (fun t => t.date ∈ pre ++ [d])
        = sumFor ts (fun t => strLeB t.date d) := by
      apply sumFor_congr
      intro t ht
      by_cases hle : strLeB t.date d = true
      · rcases List.mem_append.mp (hcomp t ht) with hx | hx
        · simp [List.mem_append, hx, hle]
        · rcases List.mem_cons.mp hx with hx' | hx'
          · simp [List.mem_append, hx', hle, strLeB_refl]
          · have hp := (List.pairwise_append.mp hpw).2.1
            have h1 : strLeB d t.date = true :=
              (List.pairwise_cons.mp hp).1 t.date hx'
            have h2 : t.date = d := strLeB_antisymm hle h1
            simp [List.mem_append, h2, hle, strLeB_refl]
      · have h1 : t.date ∉ pre := fun hx => hle (hcross t.date hx)
        have h2 : t.date ≠ d := fun hx => hle (by rw [hx]; exact strLeB_refl d)
        simp [List.mem_append, h1, h2, hle]
    simp only [runningTotals, List.map_cons]
    congr 1
    · rw [hacc, hhead]
    · rw [hacc]
      have hpw' : ((pre ++ [d]) ++ ds).Pairwise strRel := by
        simpa [List.append_assoc] using hpw
      have hnd' : ((pre ++ [d]) ++ ds).Nodup := by
        simpa [List.append_assoc] using hnd
      have hcomp' : ∀ t ∈ ts, t.date ∈ (pre ++ [d]) ++ ds := by
        intro t ht
        simpa [List.append_assoc] using hcomp t ht
      exact ih (pre ++ [d]) hpw' hnd' hcomp'

theorem mem_allDates {ts : List Transaction} {t : Transaction} (ht : t ∈ ts) :
    t.date ∈ allDates ts :=
  mem_sortStrings.mpr ((mem_dedupFirst _ _).mpr
    (List.mem_map_of_mem (fun t => t.date) ht))

/-- C2. The cumulative series assigns to each date of the shared sorted
x-axis the sum of all transaction amounts dated on or before it; in
particular for `[{2024-01-01, +10}, {2024-01-02, -3}, {2024-01-03, +5}]`
the series is `[10, 7, 12]`. -/
theorem C2_cumulative_series :
    (∀ ts : List Transaction,
        cumulativeData ts
          = (allDates ts).map (fun d => sumFor ts (fun t => strLeB t.date d))) ∧
      cumulativeData
          [⟨"2024-01-01", 10, "t1", "c"⟩, ⟨"2024-01-02", -3, "t2", "c"⟩,
           ⟨"2024-01-03", 5, "t3", "c"⟩]
        = [10, 7, 12] := by
  constructor
  · intro ts
    have h := runningTotals_spec ts (allDates ts) []
    simp only [List.nil_append] at h
    have h0 := sumFor_mem_nil ts
    simp only [cumulativeData]
    rw [← h0]
    exact h (sortStrings_pairwise _) (sortStrings_nodup (nodup_dedupFirst _))
      (fun t ht => mem_allDates ht)
  · have ne12 : ("2024-01-01" : String) ≠ "2024-01-02" := by decide
    have ne13 : ("2024-01-01" : String) ≠ "2024-01-03" := by decide
    have ne23 : ("2024-01-02" : String) ≠ "2024-01-03" := by decide
    norm_num [cumulativeData, allDates, sortStrings, List.insertionSort,
      List.orderedInsert, strRel, strLeB, listCharLe, dedupFirst, dedupFirstAux,
      dailyMap, buildKeyMap, mapGetD, mapGet, mapSet, runningTotals,
      ne12, ne13, ne23, ne12.symm, ne13.symm, ne23.symm]

/-- C4. Weekly view: every transaction is bucketed into the Monday-start
calendar week of its date — the week key is the Monday on or before the
date (for a Sunday, six days earlier), as the second conjunct states on
day numbers: the key is a Monday (`(n+4) % 7 = 1`), at most the date, and
less than seven days before it.  The week's total is broadcast to every
x-axis day of that week (first conjunct); in particular a Monday
transaction of 20 and a Wednesday transaction of 5 in the same week both
plot as 25 on each of their x-axis days (third conjunct). -/
theorem C4_weekly_broadcast :
    (∀ ts : List Transaction,
        weeklyData ts
          = (allDates ts).map
              (fun d => sumFor ts (fun t => weekKeyStr t.date = weekKeyStr d))) ∧
      (∀ n dayOfMonth : Int,
        (jsMondayNum n dayOfMonth + 4) % 7 = 1 ∧
          jsMondayNum n dayOfMonth ≤ n ∧ n < jsMondayNum n dayOfMonth + 7) ∧
      weeklyData [⟨"2024-01-01", 20, "t1", "c"⟩, ⟨"2024-01-03", 5, "t2", "c"⟩]
        = [25, 25] := by
  refine ⟨?_, ?_, ?_⟩
  · intro ts
    simp only [weeklyData, mapGetD_weeklyMap]
  · intro n d
    simp only [jsMondayNum]
    split_ifs <;> omega
  · have hk1 : weekKeyStr "2024-01-01" = "2024-01-01" := by decide
    have hk3 : weekKeyStr "2024-01-03" = "2024-01-01" := by decide
    have ne13 : ("2024-01-01" : String) ≠ "2024-01-03" := by decide
    have hc13 : ('1' : Char).toNat < ('3' : Char).toNat := by decide
    norm_num [weeklyData, weeklyMap, buildKeyMap, allDates, sortStrings,
      List.insertionSort, List.orderedInsert, strRel, strLeB, listCharLe,
      dedupFirst, dedupFirstAux, mapGetD, mapGet, mapSet, hk1, hk3,
      ne13, ne13.symm, hc13]

/-- C8. Empty-state: with an empty transaction list or no enabled view,
`getChartData` returns an empty label set and exactly one placeholder
dataset labelled `"No data"` with an empty data array. -/
theorem C8_empty_state (ts : List Transaction) (views : Views)
    (h : ts.length = 0 ∨ viewsSize views = 0) :
    getChartData ts views = ⟨[], [⟨"No data", []⟩]⟩ := by
  simp only [getChartData, if_pos h]

/-- C8 witness: the empty store with all views enabled produces the
placeholder chart. -/
theorem C8_witness :
    getChartData [] ⟨true, true, true⟩ = ⟨[], [⟨"No data", []⟩]⟩ :=
  C8_empty_state [] ⟨true, true, true⟩ (Or.inl rfl)

/-- C6. Tooltip truncation: a description longer than 35 characters is
shown as its first 32 characters followed by the 3-character `"..."`
(total 35 characters); a description of at most 35 characters is shown
unchanged. -/
theorem C6_truncation (s : String) :
    (35 < s.data.length →
      truncateDescription s = jsSubstringTo s 32 ++ "..." ∧
        (truncateDescription s).data.length = 35) ∧
    (s.data.length ≤ 35 → truncateDescription s = s) := by
  constructor
  · intro h
    refine ⟨if_pos h, ?_⟩
    simp only [truncateDescription, if_pos h, jsSubstringTo]
    rw [String.data_append, List.length_append, List.length_take]
    have h3 : ("..." : String).data.length = 3 := rfl
    rw [h3]
    omega
  · intro h
    exact if_neg (by omega)

/-- C6 witness: a 50-character description is truncated to 32 characters
plus the ellipsis, 35 characters in all. -/
theorem C6_witness :
    35 < ("01234567890123456789012345678901234567890123456789" : String).data.length ∧
      truncateDescription "01234567890123456789012345678901234567890123456789"
        = jsSubstringTo "01234567890123456789012345678901234567890123456789" 32
            ++ "..." ∧
      (truncateDescription
          "01234567890123456789012345678901234567890123456789").data.length = 35 :=
  ⟨by decide, (C6_truncation _).1 (by decide)⟩

/-- C7. The category color function is a pure function, so calling it
twice with the same string gives the identical color; `"Groceries"` is in
the fixed table and maps to `#10b981`; every category outside the table
gets the hue derived from the polynomial rolling hash reduced by `% 360`
(JS remainder, `Int.tmod`). -/
theorem C7_category_color :
    getCategoryColor "Groceries" = "#10b981" ∧
      (∀ c : String, getCategoryColor c = getCategoryColor c) ∧
      (∀ c : String, mapGet colorTable c = none →
        getCategoryColor c
          = "hsl(" ++ intToString (Int.tmod (jsHash c) 360) ++ ", 70%, 50%)") := by
  refine ⟨by decide, fun c => rfl, fun c hc => ?_⟩
  simp only [getCategoryColor, hc]

/-- C7 witness: `"Coffee"` is not in the table and gets its hash-derived
`hsl` color, identically on repeated calls. -/
theorem C7_witness :
    mapGet colorTable "Coffee" = none ∧
      getCategoryColor "Coffee"
        = "hsl(" ++ intToString (Int.tmod (jsHash "Coffee") 360) ++ ", 70%, 50%)" :=
  ⟨by decide, C7_category_color.2.2 "Coffee" (by decide)⟩

/-! ### Suffix characterisation of the file filter -/

theorem listStartsWith_iff (p l : List Char) :
    listStartsWith p l = true ↔ ∃ r, l = p ++ r := by
  induction p generalizing l with
  | nil => simp [listStartsWith]
  | cons a as ih =>
    cases l with
    | nil => simp [listStartsWith]
    | cons b bs =>
      simp only [listStartsWith, Bool.and_eq_true, decide_eq_true_eq, ih,
        List.cons_append]
      constructor
      · rintro ⟨rfl, r, rfl⟩
        exact ⟨r, rfl⟩
      · rintro ⟨r, hr⟩
        injection hr with h1 h2
        exact ⟨h1.symm, r, h2⟩

theorem jsEndsWith_iff (s post : String) :
    jsEndsWith s post = true ↔ ∃ p, s.data = p ++ post.data := by
  simp only [jsEndsWith, listStartsWith_iff]
  constructor
  · rintro ⟨r, hr⟩
    refine ⟨r.reverse, ?_⟩
    have h := congrArg List.reverse hr
    simpa [List.reverse_append] using h
  · rintro ⟨p, hp⟩
    refine ⟨p.reverse, ?_⟩
    rw [hp]
    simp [List.reverse_append]

/-- C9 counterexample: `report.Csv` ends in `.csv` under case-insensitive
comparison (lower-casing the name gives a `.csv` suffix), yet the drop
handler rejects it, so acceptance is not case-insensitive. -/
theorem C9_counterexample :
    acceptsFile "report.Csv" = false ∧
      jsEndsWith (lowerStr "report.Csv") ".csv" = true := by
  constructor <;> decide

/-- C9 amended: a dropped file reaches the ingestion path iff its name
ends in exactly `.csv` or exactly `.CSV`; other casings are ignored. -/
theorem C9_acceptsFile_suffix (name : String) :
    acceptsFile name = true ↔
      (∃ p, name.data = p ++ (".csv" : String).data) ∨
        (∃ p, name.data = p ++ (".CSV" : String).data) := by
  simp only [acceptsFile, Bool.or_eq_true, jsEndsWith_iff]

/-- C9 witness: a name with the exact suffix `.CSV` is accepted. -/
theorem C9_witness : acceptsFile "b.CSV" = true :=
  (C9_acceptsFile_suffix "b.CSV").mpr (Or.inr ⟨['b'], by decide⟩)

/-- C3 counterexample: a row whose date string has only two
slash-separated components is not excluded from the store — it is ingested
with the malformed date `"undefined-01-02"` — and a row whose date string
has no slash at all makes the row handler throw (`err`, the unhandled
`TypeError` from `day.padStart` on `undefined`) instead of being skipped. -/
theorem C3_counterexample :
    ingest [] [⟨some "01/02", some "5", none, none⟩]
        = [⟨"undefined-01-02", -5, "Unknown", "Uncategorized"⟩] ∧
      normalizeRow ⟨some "1022024", some "5", none, none⟩ = .err := by
  constructor
  · have hsp : jsSplit "01/02" '/' = ["01", "02"] := by decide
    have hpf : jsParseFloat "5" = some 5 := by
      simp [jsParseFloat, takeDigits, isDigitChar, digitsToNat]
    have hdate : (("undefined" ++ "-" ++ padStart2 "01" ++ "-" ++ padStart2 "02") :
        String) = "undefined-01-02" := by decide
    have hne1 : ("01/02" : String) ≠ "" := by decide
    have hne2 : ("5" : String) ≠ "" := by decide
    norm_num [ingest, parseRows, normalizeRow, jsDefault, hsp, hpf, hdate,
      hne1, hne2, dedupFirst, dedupFirstAux, sortByDate, List.insertionSort,
      List.orderedInsert]
  · decide

/-- C3 amended: rows missing the date or amount field (or with an empty
one) are skipped; with both fields present and non-empty, the date is
split on `/` with no validation of the component count — one component
throws (aborting the whole file, so nothing is ingested), two or more
components build the stored date from the first three positions (a
missing third stringifies as `"undefined"`) — and the row is skipped
only when the amount parses to `NaN`, otherwise it is stored with the
negated amount and defaulted description/category.  Skipped rows are
excluded from the resulting store; a thrown row aborts ingestion. -/
theorem C3_row_rejection (r : RawRow) :
    ((r.transactionDate = none ∨ r.amount = none ∨
        r.transactionDate = some "" ∨ r.amount = some "") →
      normalizeRow r = .skip) ∧
    (∀ ds amtStr x, r.transactionDate = some ds → r.amount = some amtStr →
      ds ≠ "" → amtStr ≠ "" → jsSplit ds '/' = [x] →
      normalizeRow r = .err) ∧
    (∀ ds amtStr month day rest, r.transactionDate = some ds →
      r.amount = some amtStr → ds ≠ "" → amtStr ≠ "" →
      jsSplit ds '/' = month :: day :: rest → jsParseFloat amtStr = none →
      normalizeRow r = .skip) ∧
    (∀ ds amtStr v month day rest, r.transactionDate = some ds →
      r.amount = some amtStr → ds ≠ "" → amtStr ≠ "" →
      jsSplit ds '/' = month :: day :: rest → jsParseFloat amtStr = some v →
      normalizeRow r
        = .ok ⟨rest.headD "undefined" ++ "-" ++ padStart2 month ++ "-" ++
            padStart2 day, -v, jsDefault r.description "Unknown",
            jsDefault r.category "Uncategorized"⟩) ∧
    (∀ rs, normalizeRow r = .skip → parseRows (r :: rs) = parseRows rs) ∧
    (∀ rs, normalizeRow r = .err → parseRows (r :: rs) = none) := by
  obtain ⟨rd, ra, rde, rca⟩ := r
  refine ⟨?_, ?_, ?_, ?_, ?_, ?_⟩
  · rintro (h | h | h | h) <;> subst h
    · simp [normalizeRow]
    · cases rd <;> simp [normalizeRow]
    · cases ra <;> simp [normalizeRow]
    · cases rd <;> simp [normalizeRow]
  · intro ds amtStr x h1 h2 h3 h4 hsp
    simp only at h1 h2
    subst h1
    subst h2
    simp [normalizeRow, h3, h4, hsp]
  · intro ds amtStr month day rest h1 h2 h3 h4 hsp hpf
    simp only at h1 h2
    subst h1
    subst h2
    simp [normalizeRow, h3, h4, hsp, hpf]
  · intro ds amtStr v month day rest h1 h2 h3 h4 hsp hpf
    simp only at h1 h2
    subst h1
    subst h2
    cases rest with
    | nil => simp [normalizeRow, h3, h4, hsp, hpf]
    | cons y t => simp [normalizeRow, h3, h4, hsp, hpf]
  · intro rs h
    simp [parseRows, h]
  · intro rs h
    simp [parseRows, h]

/-- C3 witness: one concrete row per behaviour — a missing date is
skipped, a slashless date throws, amount `"abc"` is skipped, a valid
Chase row is stored with reordered date and negated amount, and the
store-level exclusion/abort of skipped/thrown rows. -/
theorem C3_witness :
    normalizeRow ⟨none, some "5", none, none⟩ = .skip ∧
      normalizeRow ⟨some "1152024", some "5", none, none⟩ = .err ∧
      normalizeRow ⟨some "01/15/2024", some "abc", none, none⟩ = .skip ∧
      normalizeRow ⟨some "01/15/2024", some "-3", some "COFFEE", some "Food"⟩
        = .ok ⟨"2024-01-15", 3, "COFFEE", "Food"⟩ ∧
      parseRows [⟨some "01/15/2024", some "abc", none, none⟩] = some [] ∧
      parseRows [⟨some "1152024", some "5", none, none⟩] = none := by
  have hskip : normalizeRow ⟨some "01/15/2024", some "abc", none, none⟩ = .skip :=
    (C3_row_rejection _).2.2.1 "01/15/2024" "abc" "01" "15" ["2024"]
      rfl rfl (by decide) (by decide) (by decide) (by decide)
  have herr : normalizeRow ⟨some "1152024", some "5", none, none⟩ = .err :=
    (C3_row_rejection _).2.1 "1152024" "5" "1152024" rfl rfl
      (by decide) (by decide) (by decide)
  have hpf3 : jsParseFloat "-3" = some (-3) := by
    simp [jsParseFloat, takeDigits, isDigitChar, digitsToNat]
  have hok := (C3_row_rejection
      ⟨some "01/15/2024", some "-3", some "COFFEE", some "Food"⟩).2.2.2.1
    "01/15/2024" "-3" (-3) "01" "15" ["2024"] rfl rfl
    (by decide) (by decide) (by decide) hpf3
  refine ⟨(C3_row_rejection _).1 (Or.inl rfl), herr, hskip, ?_, ?_, ?_⟩
  · rw [hok]
    have hdef1 : jsDefault (some "COFFEE") "Unknown" = "COFFEE" := by decide
    have hdef2 : jsDefault (some "Food") "Uncategorized" = "Food" := by decide
    simp only [hdef1, hdef2, neg_neg, NormResult.ok.injEq, Transaction.mk.injEq]
    refine ⟨by decide, trivial, trivial, trivial⟩
  · exact ((C3_row_rejection _).2.2.2.2.1 [] hskip).trans rfl
  · exact (C3_row_rejection _).2.2.2.2.2 [] herr
